import Mathlib

/-!
Verification development for the dataset-captioning scripts.

Strings from the Python code are modelled as lists of characters
(`Str`).  The helper functions below are shallow embeddings of the
Python string and path operations used by the scripts
(`str.strip`, `str.split`, `str.replace`, `os.path.splitext`,
`os.path.basename`).
-/

abbrev Str := List Char

/-- Whitespace characters recognised by Python `str.strip` / `str.split`
(ASCII fragment). -/
def isSpaceChar (c : Char) : Bool :=
  c == ' ' || c == '\t' || c == '\n' || c == '\r' || c == '\x0b' || c == '\x0c'

/-- Remove leading whitespace (`lstrip`). -/
def dropLead (l : Str) : Str := l.dropWhile isSpaceChar

/-- Python `str.strip`: remove trailing then leading whitespace. -/
def pyStrip (l : Str) : Str := dropLead ((dropLead l.reverse).reverse)

/-- Python `str.split()` with no separator: maximal runs of
non-whitespace characters; empty runs are discarded.  `acc` is the
current word accumulated in reverse. -/
def wordsAux : Str → Str → List Str
  | [], acc => if acc.isEmpty then [] else [acc.reverse]
  | c :: rest, acc =>
    if isSpaceChar c then
      if acc.isEmpty then wordsAux rest [] else acc.reverse :: wordsAux rest []
    else wordsAux rest (c :: acc)

def pyWords (l : Str) : List Str := wordsAux l []

/-- `count_words` from add_caption_biomedparse_improved.py:
`len(text.strip().split())`. -/
def count_words (text : Str) : Nat := (pyWords (pyStrip text)).length

/-- Python `s.split(sep)` for a single-character separator: keeps empty
fields, always returns at least one field. -/
def splitOnChar (sep : Char) : Str → List Str
  | [] => [[]]
  | c :: rest =>
    match splitOnChar sep rest with
    | [] => [[]]
    | w :: ws => if c == sep then [] :: w :: ws else (c :: w) :: ws

/-- Python `s.replace(pat, rep)`: replace all non-overlapping
occurrences left to right.  Fuelled so that the recursion is
structural; `replaceAll` supplies fuel `s.length`, which is enough
because every step consumes at least one character. -/
def replaceAllFuel (pat rep : Str) : Nat → Str → Str
  | 0, s => s
  | _ + 1, [] => []
  | fuel + 1, c :: rest =>
    if pat ≠ [] ∧ pat.isPrefixOf (c :: rest) then
      rep ++ replaceAllFuel pat rep fuel (List.drop (pat.length - 1) rest)
    else
      c :: replaceAllFuel pat rep fuel rest

def replaceAll (pat rep s : Str) : Str := replaceAllFuel pat rep s.length s

/-- Whether `pat` occurs as a contiguous substring of `s`. -/
def hasMatch (pat : Str) : Str → Bool
  | [] => pat.isEmpty
  | c :: rest => pat.isPrefixOf (c :: rest) || hasMatch pat rest

/-- `os.path.basename`: everything after the last `/`. -/
def basenameOf (p : Str) : Str := (p.reverse.takeWhile (fun c => c ≠ '/')).reverse

/-- `os.path.splitext` (posix): split off the extension at the last dot
of the final path component, unless that component consists only of
dots up to that position. -/
def splitextPair (p : Str) : Str × Str :=
  let r := p.reverse
  let bn := r.takeWhile (fun c => c ≠ '/')
  let ext := bn.takeWhile (fun c => c ≠ '.')
  if ext.length < bn.length ∧ (bn.drop (ext.length + 1)).any (fun c => c ≠ '.') then
    ((r.drop (ext.length + 1)).reverse, ('.' :: ext.reverse))
  else
    (p, [])

def splitextRoot (p : Str) : Str := (splitextPair p).1

/-!
Embeddings of the functions of src/datasets/add_caption_biomedparse_improved.py
and src/datasets/add_caption_biomedparse.py.
-/

/-- `mask_to_caption_path` from add_caption_biomedparse_improved.py:
`os.path.splitext(mask_path)[0] + ".txt"` followed by
`txt_path.replace("_mask", "_caption")` (whole-path, all occurrences). -/
def mask_to_caption_path (mask_path : Str) : Str :=
  replaceAll "_mask".toList "_caption".toList (splitextRoot mask_path ++ ".txt".toList)

/-- `mask_to_caption_txt_path` from add_caption_biomedparse.py: split the
txt path on the path separator, rewrite `_mask` to `_caption` in the
first segment that ends with `_mask`, and rejoin. -/
def rewriteFirstMaskSeg : List Str → List Str
  | [] => []
  | seg :: rest =>
    if ("_mask".toList).isSuffixOf seg then
      replaceAll "_mask".toList "_caption".toList seg :: rest
    else
      seg :: rewriteFirstMaskSeg rest

def mask_to_caption_txt_path (mask_path : Str) : Str :=
  let txt_path := splitextRoot mask_path ++ ".txt".toList
  List.intercalate "/".toList (rewriteFirstMaskSeg (splitOnChar '/' txt_path))

/-- `parts[-1].replace("+", " ")` — single-character replacement. -/
def replacePlusSpace (l : Str) : Str := l.map (fun c => if c = '+' then ' ' else c)

/-- Python `str.upper` (ASCII model). -/
def pyUpper (l : Str) : Str := l.map Char.toUpper

/-- `extract_metadata_from_filename` from
add_caption_biomedparse_improved.py.  Returns
(target, modality, site, sequence). -/
def extract_metadata_from_filename (mask_path : Str) : Str × Str × Str × Option Str :=
  let stem := splitextRoot (basenameOf mask_path)
  let parts := splitOnChar '_' stem
  let target := if parts.length ≥ 1 then replacePlusSpace (parts.getLastD []) else "structure".toList
  let site := if parts.length ≥ 2 then parts.getD (parts.length - 2) [] else "region".toList
  let raw_mod := if parts.length ≥ 3 then parts.getD (parts.length - 3) [] else "imaging".toList
  let isSeq := ["T1", "T2", "FLAIR", "ADC"].any (fun m => hasMatch m.toList (pyUpper raw_mod))
  let modality := if isSeq then "MRI".toList else raw_mod
  let seqLabel := if isSeq then some raw_mod else none
  (target, modality, site, seqLabel)

/-- The filesystem visible to the scripts: `fexists` models
`os.path.exists`, `fread` models opening and reading a file (`none`
when the read raises). -/
structure FS where
  fexists : Str → Bool
  fread : Str → Option Str

def fsWrite (fs : FS) (p content : Str) : FS :=
  { fexists := fun q => if q = p then true else fs.fexists q
    fread := fun q => if q = p then some content else fs.fread q }

def emptyFS : FS := { fexists := fun _ => false, fread := fun _ => none }

/-- `caption_needs_regen` from add_caption_biomedparse_improved.py.
`force` is the FORCE_REGEN configuration flag, `maxW` is
MAX_CAPTION_WORDS.  Returns (needs_regen, reason). -/
def caption_needs_regen (force : Bool) (maxW : Nat) (fs : FS) (caption_path : Str) :
    Bool × Str :=
  if force then (true, "force_regen".toList)
  else if fs.fexists caption_path = false then (true, "missing".toList)
  else
    match fs.fread caption_path with
    | none => (true, "unreadable".toList)
    | some raw =>
      let content := pyStrip raw
      if content.isEmpty then (true, "empty".toList)
      else if count_words content > maxW then (true, "too_long".toList)
      else (false, [])

/-!
The remote captioning client.  One tenacity-governed call of
`AsyncLLM.get_caption` is modelled by `runRetryFrom`: the underlying
network call is a function from the attempt number (starting at 1) to
an `Outcome`; tenacity retries retryable failures with
`wait_exponential(min=1, max=10)` up to `stop_after_attempt` attempts,
re-raises non-retryable failures immediately, and raises a terminal
error on exhaustion.
-/

/-- Outcome of one raw network call: success with the response text, a
retryable exception (RateLimitError, APITimeoutError,
APIConnectionError, InternalServerError), or any other exception. -/
inductive Outcome where
  | ok (text : Str)
  | retryable
  | fatal
deriving DecidableEq

/-- Result of a tenacity-wrapped call: success (with the attempt count
and the backoff waits performed), exhaustion of the attempt budget, or
an immediately re-raised non-retryable failure. -/
inductive RetryResult where
  | success (attempts : Nat) (text : Str) (waits : List Nat)
  | exhausted (attempts : Nat)
  | fatalFail (attempts : Nat)
deriving DecidableEq

/-- tenacity `wait_exponential(min=lo, max=hi)`: the wait after failed
attempt `n` is `2^(n-1)` clamped into `[lo, hi]`. -/
def waitExp (lo hi n : Nat) : Nat := max lo (min hi (2 ^ (n - 1)))

/-- The tenacity driver.  `n` is the current attempt number, `acc` the
backoff waits performed so far; the fuel is `stopA` at the start and
dominates `stopA - n`. -/
def runRetryFrom (call : Nat → Outcome) (stopA lo hi : Nat) : Nat → Nat → List Nat → RetryResult
  | 0, n, _ => RetryResult.exhausted n
  | fuel + 1, n, acc =>
    match call n with
    | Outcome.ok t => RetryResult.success n t acc
    | Outcome.fatal => RetryResult.fatalFail n
    | Outcome.retryable =>
      if n < stopA then
        runRetryFrom call stopA lo hi fuel (n + 1) (acc ++ [waitExp lo hi n])
      else RetryResult.exhausted n

/-- `AsyncLLM.get_caption` from add_caption_biomedparse_improved.py:
tenacity with `wait_exponential(min=1, max=10)`,
`stop_after_attempt(10)`, retrying only the four retryable exception
classes; on success the response text is stripped
(`(content or "").strip()`). -/
def get_caption (call : Nat → Outcome) : RetryResult :=
  match runRetryFrom call 10 1 10 10 1 [] with
  | RetryResult.success n t w => RetryResult.success n (pyStrip t) w
  | r => r

/-- The deterministic fallback caption of `process_mask`:
`f"Segment {target} in {site} {modality}".strip()`. -/
def fallback_caption (mask_path : Str) : Str :=
  match extract_metadata_from_filename mask_path with
  | (target, modality, site, _) =>
    pyStrip ("Segment ".toList ++ target ++ " in ".toList ++ site ++ [' '] ++ modality)

/-- The caption-validation predicate of `process_mask`:
`not caption or count_words(caption) > MAX_CAPTION_WORDS`. -/
def captionInvalid (maxW : Nat) (cap : Str) : Bool :=
  cap.isEmpty || count_words cap > maxW

/-- The re-request loop of `process_mask`: while the caption is invalid
and fewer than 3 extra attempts were made, call the client again.
`getCapAt i` is the i-th `llm.get_caption` invocation of this item;
`none` models an exception escaping to the `except` handler. -/
def regenLoop (getCapAt : Nat → RetryResult) (maxW : Nat) : Str → Nat → Nat → Option Str
  | cap, _, 0 => some cap
  | cap, idx, fuel + 1 =>
    if captionInvalid maxW cap then
      match getCapAt idx with
      | RetryResult.success _ t _ => regenLoop getCapAt maxW (pyStrip t) (idx + 1) fuel
      | _ => none
    else some cap

/-- Observable outcome of `process_mask` for one work item: resumability
filter said no work; a caption was written; or the `except` branch was
taken. -/
inductive ItemResult where
  | skipped
  | written (cap : Str)
  | failed
deriving DecidableEq

/-- `process_mask` from add_caption_biomedparse_improved.py.  `llm i`
is the behaviour of the i-th `llm.get_caption` invocation for this
item (a map from attempt number to raw-call outcome). -/
def process_mask (force : Bool) (maxW : Nat) (llm : Nat → Nat → Outcome) (fs : FS)
    (mask_path : Str) : FS × ItemResult :=
  let out_txt := mask_to_caption_path mask_path
  if (caption_needs_regen force maxW fs out_txt).1 = false then (fs, ItemResult.skipped)
  else
    match get_caption (llm 0) with
    | RetryResult.success _ t _ =>
      let cap0 := pyStrip t
      match regenLoop (fun i => get_caption (llm i)) maxW cap0 1 3 with
      | none => (fs, ItemResult.failed)
      | some cap1 =>
        let capF := if captionInvalid maxW cap1 then fallback_caption mask_path else cap1
        (fsWrite fs out_txt (capF ++ ['\n']), ItemResult.written capF)
    | _ => (fs, ItemResult.failed)

/-- Sequential composition of `process_mask` over the items of one
folder (the per-item effects of the async fan-out: each item owns a
distinct output path, so the accumulated filesystem is the fold). -/
def process_items (force : Bool) (maxW : Nat) (llm : Nat → Nat → Outcome) :
    FS → List Str → FS × List ItemResult
  | fs, [] => (fs, [])
  | fs, p :: ps =>
    ((process_items force maxW llm (process_mask force maxW llm fs p).1 ps).1,
      (process_mask force maxW llm fs p).2
        :: (process_items force maxW llm (process_mask force maxW llm fs p).1 ps).2)

def countFailed (rs : List ItemResult) : Nat :=
  rs.countP (fun r => r = ItemResult.failed)

def countWritten (rs : List ItemResult) : Nat :=
  rs.countP (fun r => match r with | ItemResult.written _ => true | _ => false)

/-!
The bounded-concurrency scheduler.  Each `process_mask` task wraps its
remote call in `async with semaphore` where the semaphore is created
as `asyncio.Semaphore(CONCURRENCY)` in `main`.  A task is idle before
it acquires, `inCall` between acquire and release (i.e. inside
`llm.get_caption`), and `finished` afterwards.  The semaphore lets a
task acquire only when fewer than `N` tasks hold it.
-/

inductive TaskPhase where
  | idle
  | inCall
  | finished
deriving DecidableEq

/-- Number of tasks currently inside the remote call. -/
def inflightCount (ts : List TaskPhase) : Nat :=
  ts.countP (fun t => t = TaskPhase.inCall)

/-- One scheduler transition: some idle task acquires the semaphore
(possible only when the in-flight count is below `N`), or some
in-flight task returns from the remote call and releases. -/
inductive SemStep (N : Nat) : List TaskPhase → List TaskPhase → Prop where
  | acquire (ts1 ts2 : List TaskPhase)
      (h : inflightCount (ts1 ++ TaskPhase.idle :: ts2) < N) :
      SemStep N (ts1 ++ TaskPhase.idle :: ts2) (ts1 ++ TaskPhase.inCall :: ts2)
  | release (ts1 ts2 : List TaskPhase) :
      SemStep N (ts1 ++ TaskPhase.inCall :: ts2) (ts1 ++ TaskPhase.finished :: ts2)

/-- States reachable by the scheduler from an initial task vector. -/
inductive SemReachable (N : Nat) (init : List TaskPhase) : List TaskPhase → Prop where
  | refl : SemReachable N init init
  | step {s s' : List TaskPhase} : SemReachable N init s → SemStep N s s' →
      SemReachable N init s'


/-! Sanity checks of the string model on concrete values. -/

example : splitextRoot "a/b/stem.png".toList = "a/b/stem".toList := by decide
example : splitextRoot "a/..png".toList = "a/..png".toList := by decide
example : splitextRoot "a/x.b.png".toList = "a/x.b".toList := by decide
example : pyStrip "  hi there\n".toList = "hi there".toList := by decide
example : count_words " a  bb \n c ".toList = 3 := by decide
example : splitOnChar '_' "a__b".toList = ["a".toList, [], "b".toList] := by decide
example : replaceAll "_mask".toList "_caption".toList "d/t_mask/a_mask_b.txt".toList
    = "d/t_caption/a_caption_b.txt".toList := by decide

/-! Helper lemmas about the string model. -/

theorem dropLead_dropLead (l : Str) : dropLead (dropLead l) = dropLead l := by
  induction l with
  | nil => rfl
  | cons c t ih =>
    by_cases h : isSpaceChar c
    · simp [dropLead, List.dropWhile, h] at ih ⊢
      exact ih
    · simp [dropLead, List.dropWhile, h]

theorem dropLead_head_not_space (l : Str) (c : Char) (t : Str)
    (h : dropLead l = c :: t) : isSpaceChar c = false := by
  induction l with
  | nil => simp [dropLead] at h
  | cons a r ih =>
    by_cases ha : isSpaceChar a
    · exact ih (by simpa [dropLead, List.dropWhile, ha] using h)
    · simp [dropLead, List.dropWhile, ha] at h
      simp [← h.1, ha]

theorem dropLead_getLast? (l : Str) :
    dropLead l = [] ∨ (dropLead l).getLast? = l.getLast? := by
  induction l with
  | nil => left; rfl
  | cons a r ih =>
    by_cases ha : isSpaceChar a
    · rcases ih with h | h
      · left; simpa [dropLead, List.dropWhile, ha] using h
      · rcases hr : dropLead r with _ | ⟨c, t⟩
        · left; simp [dropLead, List.dropWhile, ha]; simpa [dropLead] using hr
        · right
          have hd : dropLead (a :: r) = dropLead r := by simp [dropLead, List.dropWhile, ha]
          have hrne : r ≠ [] := by
            intro he; rw [he] at hr; simp [dropLead] at hr
          rcases r with _ | ⟨b, rb⟩
          · exact absurd rfl hrne
          · rw [hd, h, List.getLast?_cons_cons]
    · right; simp [dropLead, List.dropWhile, ha]

theorem dropWhile_ne_nil_of_exists (p : Char → Bool) (l : Str)
    (h : ∃ x ∈ l, p x = false) : l.dropWhile p ≠ [] := by
  induction l with
  | nil => simp at h
  | cons a r ih =>
    by_cases ha : p a
    · rcases h with ⟨x, hx, hpx⟩
      rcases List.mem_cons.mp hx with hx1 | hx2
      · subst hx1; simp [ha] at hpx
      · simp only [List.dropWhile, ha]
        exact ih ⟨x, hx2, hpx⟩
    · simp [List.dropWhile, ha]

theorem pyStrip_append_newline (l : Str) : pyStrip (l ++ ['\n']) = pyStrip l := by
  simp [pyStrip, dropLead, List.dropWhile, isSpaceChar]

theorem dropLead_of_head_not_space (x : Str) (c : Char)
    (h : x.head? = some c) (hc : isSpaceChar c = false) : dropLead x = x := by
  rcases x with _ | ⟨a, t⟩
  · rfl
  · simp at h
    subst h
    simp [dropLead, List.dropWhile, hc]

theorem pyStrip_idem (l : Str) : pyStrip (pyStrip l) = pyStrip l := by
  rcases hm : dropLead l.reverse with _ | ⟨c, t⟩
  · have hy : pyStrip l = [] := by rw [pyStrip, hm]; rfl
    rw [hy]; rfl
  · have hc : isSpaceChar c = false := dropLead_head_not_space _ _ _ hm
    have hy : pyStrip l = dropLead ((c :: t).reverse) := by rw [pyStrip, hm]
    rcases dropLead_getLast? ((c :: t).reverse) with hz | hz
    · rw [hy, hz]; simp [pyStrip, dropLead]
    · have hgl : ((c :: t).reverse).getLast? = some c := by
        rw [List.getLast?_reverse]; rfl
      rw [hgl] at hz
      have hrev : dropLead ((pyStrip l).reverse) = (pyStrip l).reverse := by
        apply dropLead_of_head_not_space _ c _ hc
        rw [hy, List.head?_reverse, hz]
      rw [pyStrip, hrev, List.reverse_reverse, hy, dropLead_dropLead]

theorem pyStrip_cons_ne_nil (c : Char) (l : Str) (hc : isSpaceChar c = false) :
    pyStrip (c :: l) ≠ [] := by
  have hne : dropLead ((c :: l).reverse) ≠ [] := by
    apply dropWhile_ne_nil_of_exists
    exact ⟨c, by simp, hc⟩
  rcases dropLead_getLast? ((c :: l).reverse) with hz | hz
  · exact absurd hz hne
  · have hgl : ((c :: l).reverse).getLast? = some c := by
      rw [List.getLast?_reverse]; rfl
    rw [hgl] at hz
    have hhead : ((dropLead ((c :: l).reverse)).reverse).head? = some c := by
      rw [List.head?_reverse, hz]
    have : dropLead ((dropLead ((c :: l).reverse)).reverse)
        = (dropLead ((c :: l).reverse)).reverse :=
      dropLead_of_head_not_space _ c hhead hc
    rw [pyStrip, this]
    intro hf
    exact hne (by rwa [List.reverse_eq_nil_iff] at hf)

theorem count_words_pyStrip (l : Str) : count_words (pyStrip l) = count_words l := by
  unfold count_words
  rw [pyStrip_idem]

theorem count_words_nil_of_pyStrip_nil (l : Str) (h : pyStrip l = []) :
    count_words l = 0 := by
  unfold count_words
  rw [h]
  rfl

theorem splitOnChar_ne_nil (sep : Char) (l : Str) : splitOnChar sep l ≠ [] := by
  rcases l with _ | ⟨c, rest⟩
  · simp [splitOnChar]
  · unfold splitOnChar
    rcases h : splitOnChar sep rest with _ | ⟨w, ws⟩
    · simp
    · by_cases hc : c == sep <;> simp [hc]

theorem takeWhile_append_block (p : Char → Bool) (l1 : Str) (c : Char) (l2 : Str)
    (h1 : ∀ x ∈ l1, p x = true) (hc : p c = false) :
    (l1 ++ c :: l2).takeWhile p = l1 := by
  induction l1 with
  | nil => simp [List.takeWhile, hc]
  | cons a t ih =>
    have ha : p a = true := h1 a (by simp)
    simp only [List.cons_append, List.takeWhile_cons, ha, if_true]
    exact congrArg (a :: ·) (ih (fun x hx => h1 x (by simp [hx])))

theorem isPrefixOf_iff_take (pp : Str) : ∀ s : Str,
    pp.isPrefixOf s = true ↔ s.take pp.length = pp := by
  induction pp with
  | nil => intro s; simp [List.isPrefixOf]
  | cons a t ih =>
    intro s
    rcases s with _ | ⟨b, sb⟩
    · simp [List.isPrefixOf]
    · simp only [List.isPrefixOf, List.length_cons, List.take_succ_cons, Bool.and_eq_true,
        beq_iff_eq, List.cons.injEq]
      constructor
      · rintro ⟨hab, hpre⟩
        exact ⟨hab.symm, (ih sb).mp hpre⟩
      · rintro ⟨hab, htake⟩
        exact ⟨hab.symm, (ih sb).mpr htake⟩

theorem isPrefixOf_append_self (pp v : Str) : pp.isPrefixOf (pp ++ v) = true := by
  rw [isPrefixOf_iff_take, List.take_left]

theorem hasMatch_of_isPrefixOf (pat : Str) (c : Char) (t : Str)
    (h : pat.isPrefixOf (c :: t) = true) : hasMatch pat (c :: t) = true := by
  unfold hasMatch
  simp [h]

theorem replaceAllFuel_no_occ (pat rep : Str) (s : Str)
    (h : hasMatch pat s = false) : ∀ fuel, replaceAllFuel pat rep fuel s = s := by
  induction s with
  | nil => intro fuel; cases fuel <;> rfl
  | cons c rest ih =>
    intro fuel
    unfold hasMatch at h
    rcases Bool.or_eq_false_iff.mp h with ⟨h1, h2⟩
    cases fuel with
    | zero => rfl
    | succ f =>
      unfold replaceAllFuel
      rw [if_neg (by simp [h1])]
      rw [ih h2]

theorem replaceAllFuel_step_pos (pat rep : Str) (f : Nat) (c : Char) (rest : Str)
    (hpat : pat ≠ []) (h : pat.isPrefixOf (c :: rest) = true) :
    replaceAllFuel pat rep (f + 1) (c :: rest)
      = rep ++ replaceAllFuel pat rep f (List.drop (pat.length - 1) rest) := by
  simp only [replaceAllFuel]
  rw [if_pos ⟨hpat, h⟩]

theorem replaceAllFuel_step_neg (pat rep : Str) (f : Nat) (c : Char) (rest : Str)
    (h : pat.isPrefixOf (c :: rest) = false) :
    replaceAllFuel pat rep (f + 1) (c :: rest) = c :: replaceAllFuel pat rep f rest := by
  simp only [replaceAllFuel]
  rw [if_neg]
  rintro ⟨-, hc⟩
  rw [h] at hc
  cases hc

theorem replaceAllFuel_first_occ (pat rep v : Str) (hpat : pat ≠ []) :
    ∀ (u : Str) (fuel : Nat), u.length < fuel →
    hasMatch pat (u ++ pat.dropLast) = false →
    replaceAllFuel pat rep fuel (u ++ pat ++ v)
      = u ++ rep ++ replaceAllFuel pat rep (fuel - (u.length + 1)) v := by
  intro u
  induction u with
  | nil =>
    intro fuel hfuel _
    cases fuel with
    | zero => omega
    | succ f =>
      rcases hp : pat with _ | ⟨pc, pt⟩
      · exact absurd hp hpat
      · rw [← hp]
        have hshape : [] ++ pat ++ v = pc :: (pt ++ v) := by rw [hp]; simp
        rw [hshape]
        rw [replaceAllFuel_step_pos pat rep f pc (pt ++ v) hpat
          (by rw [← hshape]; simp [isPrefixOf_append_self pat v])]
        have hdrop : List.drop (pat.length - 1) (pt ++ v) = v := by
          rw [hp]
          simp only [List.length_cons, Nat.add_sub_cancel]
          exact List.drop_left pt v
        rw [hdrop]
        simp

  | cons a u' ih =>
    intro fuel hfuel hocc
    cases fuel with
    | zero => omega
    | succ f =>
      have hlen : pat.length ≥ 1 := List.length_pos.mpr hpat
      have hsplit : a :: (u' ++ (pat ++ v))
          = ((a :: u') ++ pat.dropLast) ++ ([pat.getLast hpat] ++ v) := by
        conv_lhs => rw [← List.dropLast_append_getLast hpat]
        simp [List.append_assoc]
      have hpre : pat.isPrefixOf (a :: (u' ++ (pat ++ v))) = false := by
        by_contra hcon
        have htrue : pat.isPrefixOf (a :: (u' ++ (pat ++ v))) = true := by
          revert hcon; cases pat.isPrefixOf (a :: (u' ++ (pat ++ v))) <;> simp
        have htake := (isPrefixOf_iff_take pat _).mp htrue
        have hle : pat.length ≤ ((a :: u') ++ pat.dropLast).length := by
          simp only [List.length_append, List.length_cons, List.length_dropLast]
          omega
        rw [hsplit, List.take_append_of_le_length hle] at htake
        have hpre2 : pat.isPrefixOf ((a :: u') ++ pat.dropLast) = true :=
          (isPrefixOf_iff_take pat _).mpr htake
        have hmatch : hasMatch pat ((a :: u') ++ pat.dropLast) = true := by
          have h0 := hasMatch_of_isPrefixOf pat a (u' ++ pat.dropLast)
            (by simpa using hpre2)
          simpa using h0
        rw [show (a :: u') ++ pat.dropLast = a :: (u' ++ pat.dropLast) by simp] at hmatch
        rw [show a :: u' ++ pat.dropLast = a :: (u' ++ pat.dropLast) by simp] at hocc
        rw [hmatch] at hocc
        cases hocc
      have hshape : (a :: u') ++ pat ++ v = a :: (u' ++ (pat ++ v)) := by simp
      rw [hshape]
      rw [replaceAllFuel_step_neg pat rep f a (u' ++ (pat ++ v)) hpre]
      have hocc' : hasMatch pat (u' ++ pat.dropLast) = false := by
        have h0 : hasMatch pat (a :: (u' ++ pat.dropLast)) = false := by
          rw [show a :: (u' ++ pat.dropLast) = a :: u' ++ pat.dropLast by simp]
          exact hocc
        unfold hasMatch at h0
        exact (Bool.or_eq_false_iff.mp h0).2
      have hih := ih f (by simp at hfuel; omega) hocc'
      rw [show u' ++ (pat ++ v) = u' ++ pat ++ v from (List.append_assoc u' pat v).symm]
      rw [hih]
      have hfe : f - (u'.length + 1) = (f + 1) - ((a :: u').length + 1) := by
        simp only [List.length_cons]
        omega
      rw [← hfe]
      simp

theorem replaceAll_single_occ (pat rep u v : Str) (hpat : pat ≠ [])
    (h1 : hasMatch pat (u ++ pat.dropLast) = false)
    (h2 : hasMatch pat v = false) :
    replaceAll pat rep (u ++ pat ++ v) = u ++ rep ++ v := by
  unfold replaceAll
  have hlen : pat.length ≥ 1 := List.length_pos.mpr hpat
  have hfuel : u.length < (u ++ pat ++ v).length := by
    simp only [List.length_append]
    omega
  rw [replaceAllFuel_first_occ pat rep v hpat u _ hfuel h1,
    replaceAllFuel_no_occ pat rep v h2]

theorem splitextRoot_shape (d stem : Str) (hslash : '/' ∉ stem)
    (hdot : ∃ c ∈ stem, c ≠ '.') :
    splitextRoot (d ++ ['/'] ++ stem ++ ['.', 'p', 'n', 'g']) = d ++ ['/'] ++ stem := by
  have h1 : List.reverse (d ++ ['/'] ++ stem ++ ['.', 'p', 'n', 'g'])
      = (['g', 'n', 'p', '.'] ++ stem.reverse) ++ '/' :: d.reverse := by
    simp
  have hmem1 : ∀ x ∈ ['g', 'n', 'p', '.'] ++ stem.reverse,
      (fun c => decide (c ≠ '/')) x = true := by
    intro x hx
    rcases List.mem_append.mp hx with h4 | hrev
    · fin_cases h4 <;> decide
    · have hxs : x ∈ stem := List.mem_reverse.mp hrev
      have hne : x ≠ '/' := fun he => hslash (he ▸ hxs)
      simp [hne]
  have hbn : List.takeWhile (fun c => decide (c ≠ '/'))
      ((['g', 'n', 'p', '.'] ++ stem.reverse) ++ '/' :: d.reverse)
      = ['g', 'n', 'p', '.'] ++ stem.reverse :=
    takeWhile_append_block _ _ _ _ hmem1 (by decide)
  have hm3 : ∀ x ∈ (['g', 'n', 'p'] : Str), (fun c => decide (c ≠ '.')) x = true := by
    intro x hx
    fin_cases hx <;> decide
  have hext : List.takeWhile (fun c => decide (c ≠ '.'))
      (['g', 'n', 'p', '.'] ++ stem.reverse) = ['g', 'n', 'p'] := by
    have h0 := takeWhile_append_block (fun c => decide (c ≠ '.')) ['g', 'n', 'p'] '.'
      stem.reverse hm3 (by decide)
    exact h0
  have hany : (stem.reverse).any (fun c => decide (c ≠ '.')) = true := by
    rcases hdot with ⟨c, hc, hne⟩
    exact List.any_eq_true.mpr ⟨c, List.mem_reverse.mpr hc, by simp [hne]⟩
  have hdropbn : List.drop (List.length ['g', 'n', 'p'] + 1)
      (['g', 'n', 'p', '.'] ++ stem.reverse) = stem.reverse :=
    List.drop_left ['g', 'n', 'p', '.'] _
  have hdrop4 : List.drop (List.length ['g', 'n', 'p'] + 1)
      ((['g', 'n', 'p', '.'] ++ stem.reverse) ++ '/' :: d.reverse)
      = stem.reverse ++ '/' :: d.reverse := by
    rw [List.append_assoc]
    exact List.drop_left ['g', 'n', 'p', '.'] _
  simp only [splitextRoot, splitextPair, h1, hbn, hext]
  rw [if_pos]
  · rw [hdrop4]
    simp
  · constructor
    · simp
    · rw [hdropbn]
      exact hany

/-- C7 (amended): for a mask path `<base>/<split>_mask/<stem>.png`, the
derived caption path is `<base>/<split>_caption/<stem>.txt`, provided
the substring `_mask` occurs nowhere in the path except as the suffix
of the split directory (and the stem is a normal file stem: it has no
path separator and is not made only of dots). -/
theorem caption_path_of_clean_stem (base split stem : Str)
    (hslash : '/' ∉ stem) (hdot : ∃ c ∈ stem, c ≠ '.')
    (hm1 : hasMatch "_mask".toList ((base ++ ['/'] ++ split) ++ "_mas".toList) = false)
    (hm2 : hasMatch "_mask".toList (['/'] ++ stem ++ ".txt".toList) = false) :
    mask_to_caption_path
        (base ++ ['/'] ++ split ++ "_mask".toList ++ ['/'] ++ stem ++ ".png".toList)
      = base ++ ['/'] ++ split ++ "_caption".toList ++ ['/'] ++ stem ++ ".txt".toList := by
  have hpng : ".png".toList = ['.', 'p', 'n', 'g'] := rfl
  have hroot : splitextRoot
      (base ++ ['/'] ++ split ++ "_mask".toList ++ ['/'] ++ stem ++ ".png".toList)
      = (base ++ ['/'] ++ split ++ "_mask".toList) ++ ['/'] ++ stem := by
    rw [hpng]
    exact splitextRoot_shape (base ++ ['/'] ++ split ++ "_mask".toList) stem hslash hdot
  unfold mask_to_caption_path
  rw [hroot]
  have hshape : ((base ++ ['/'] ++ split ++ "_mask".toList) ++ ['/'] ++ stem) ++ ".txt".toList
      = (base ++ ['/'] ++ split) ++ "_mask".toList ++ (['/'] ++ stem ++ ".txt".toList) := by
    simp [List.append_assoc]
  rw [hshape]
  have hdl : ("_mask".toList).dropLast = "_mas".toList := rfl
  have hocc := replaceAll_single_occ "_mask".toList "_caption".toList
    (base ++ ['/'] ++ split) (['/'] ++ stem ++ ".txt".toList) (by decide)
    (by rw [hdl]; exact hm1) hm2
  rw [hocc]
  simp [List.append_assoc]

/-- Witness for C7 (amended) at a concrete clean path. -/
theorem caption_path_of_clean_stem_witness :
    mask_to_caption_path "data/train_mask/img1.png".toList
      = "data/train_caption/img1.txt".toList := by
  have h := caption_path_of_clean_stem "data".toList "train".toList "img1".toList
    (by decide) (by decide) (by decide) (by decide)
  have e1 : "data/train_mask/img1.png".toList
      = "data".toList ++ ['/'] ++ "train".toList ++ "_mask".toList ++ ['/']
        ++ "img1".toList ++ ".png".toList := by decide
  have e2 : "data/train_caption/img1.txt".toList
      = "data".toList ++ ['/'] ++ "train".toList ++ "_caption".toList ++ ['/']
        ++ "img1".toList ++ ".txt".toList := by decide
  rw [e1, e2]
  exact h

/-- C7 counterexample: when the stem itself contains `_mask`, the
improved script's whole-path replacement also rewrites the stem, so the
derived path is not `<base>/<split>_caption/<stem>.txt`. -/
theorem caption_path_counterexample :
    mask_to_caption_path "d/train_mask/a_mask_b.png".toList
      ≠ "d/train_caption/a_mask_b.txt".toList := by
  decide

/-- C8: the two scripts' path derivations disagree on a mask path whose
stem contains `_mask`: the improved script rewrites the whole path, the
other script rewrites only the first directory segment ending in
`_mask`. -/
theorem path_derivations_disagree :
    mask_to_caption_path "d/train_mask/a_mask_b.png".toList
        = "d/train_caption/a_caption_b.txt".toList
      ∧ mask_to_caption_txt_path "d/train_mask/a_mask_b.png".toList
        = "d/train_caption/a_mask_b.txt".toList
      ∧ mask_to_caption_path "d/train_mask/a_mask_b.png".toList
        ≠ mask_to_caption_txt_path "d/train_mask/a_mask_b.png".toList := by
  refine ⟨by decide, by decide, by decide⟩

/-- Unfolding of `caption_needs_regen` when the file exists and reads
successfully. -/
theorem caption_needs_regen_some (maxW : Nat) (fs : FS) (p raw : Str)
    (hex : fs.fexists p = true) (hr : fs.fread p = some raw) :
    caption_needs_regen false maxW fs p
      = (if (pyStrip raw).isEmpty then (true, "empty".toList)
         else if count_words (pyStrip raw) > maxW then (true, "too_long".toList)
         else (false, [])) := by
  simp only [caption_needs_regen, hex, hr]
  simp

/-- C9: a caption file that exists but whose read raises is reported as
needing regeneration with reason `unreadable`. -/
theorem unreadable_caption_regen (maxW : Nat) (fs : FS) (p : Str)
    (hex : fs.fexists p = true) (hr : fs.fread p = none) :
    caption_needs_regen false maxW fs p = (true, "unreadable".toList) := by
  simp only [caption_needs_regen, hex, hr]
  simp

/-- Witness for C9. -/
theorem unreadable_caption_regen_witness :
    caption_needs_regen false 30
        { fexists := fun _ => true, fread := fun _ => none } "p.txt".toList
      = (true, "unreadable".toList) :=
  unreadable_caption_regen 30 _ _ rfl rfl

/-- C2: with forced regeneration off, a readable caption whose word
count exceeds the maximum is reported as needing regeneration with
reason `too_long`, and a readable caption that is non-empty after
stripping and within the bound is reported as done. -/
theorem resumability_filter_correct (maxW : Nat) (fs : FS) (p raw : Str)
    (hex : fs.fexists p = true) (hr : fs.fread p = some raw) :
    (count_words raw > maxW →
      caption_needs_regen false maxW fs p = (true, "too_long".toList))
    ∧ (pyStrip raw ≠ [] → count_words raw ≤ maxW →
      caption_needs_regen false maxW fs p = (false, [])) := by
  rw [caption_needs_regen_some maxW fs p raw hex hr]
  constructor
  · intro hcount
    have hstrip_ne : pyStrip raw ≠ [] := by
      intro h0
      rw [count_words_nil_of_pyStrip_nil raw h0] at hcount
      omega
    rw [if_neg (by simp [hstrip_ne]), if_pos (by rw [count_words_pyStrip]; exact hcount)]
  · intro hne hle
    rw [if_neg (by simp [hne]), if_neg (by rw [count_words_pyStrip]; omega)]

/-- Witness for C2 on a concrete filesystem: a 4-word caption with
bound 3 is `too_long`; with bound 10 it is done. -/
theorem resumability_filter_correct_witness :
    caption_needs_regen false 3
        { fexists := fun _ => true, fread := fun _ => some "one two three four\n".toList }
        "c.txt".toList
      = (true, "too_long".toList)
    ∧ caption_needs_regen false 10
        { fexists := fun _ => true, fread := fun _ => some "one two three four\n".toList }
        "c.txt".toList
      = (false, []) := by
  constructor
  · exact (resumability_filter_correct 3 _ "c.txt".toList "one two three four\n".toList
      rfl rfl).1 (by decide)
  · exact (resumability_filter_correct 10 _ "c.txt".toList "one two three four\n".toList
      rfl rfl).2 (by decide) (by decide)

/-- C10: metadata extraction is total by construction; the target is
always the last underscore-delimited token with `+` replaced by
spaces, and stems with fewer than two (resp. three) tokens get the
default site `region` (resp. default modality `imaging`). -/
theorem metadata_extraction_total (p : Str) :
    (extract_metadata_from_filename p).1
        = replacePlusSpace ((splitOnChar '_' (splitextRoot (basenameOf p))).getLastD [])
      ∧ ((splitOnChar '_' (splitextRoot (basenameOf p))).length < 2 →
        (extract_metadata_from_filename p).2.2.1 = "region".toList)
      ∧ ((splitOnChar '_' (splitextRoot (basenameOf p))).length < 3 →
        (extract_metadata_from_filename p).2.1 = "imaging".toList) := by
  have hne := splitOnChar_ne_nil '_' (splitextRoot (basenameOf p))
  have hlen : 1 ≤ (splitOnChar '_' (splitextRoot (basenameOf p))).length := by
    rcases h0 : splitOnChar '_' (splitextRoot (basenameOf p)) with _ | ⟨w, ws⟩
    · exact absurd h0 hne
    · simp
  refine ⟨?_, ?_, ?_⟩
  · simp only [extract_metadata_from_filename]
    rw [if_pos hlen]
  · intro h2
    simp only [extract_metadata_from_filename]
    rw [if_neg (by omega)]
  · intro h3
    simp only [extract_metadata_from_filename]
    rw [if_neg (show ¬(3 ≤ (splitOnChar '_' (splitextRoot (basenameOf p))).length) by omega)]
    decide

/-- Witness for C10 at a single-token stem. -/
theorem metadata_extraction_total_witness :
    (extract_metadata_from_filename "x.png".toList).1 = "x".toList
      ∧ (extract_metadata_from_filename "x.png".toList).2.2.1 = "region".toList
      ∧ (extract_metadata_from_filename "x.png".toList).2.1 = "imaging".toList := by
  have h := metadata_extraction_total "x.png".toList
  refine ⟨?_, h.2.1 (by decide), h.2.2 (by decide)⟩
  rw [h.1]
  decide

/-- C1: in every scheduler state reachable from an all-idle start, the
number of tasks simultaneously inside the remote call never exceeds
the semaphore capacity `N`. -/
theorem semaphore_bound (N : Nat) (init s : List TaskPhase)
    (hinit : ∀ t ∈ init, t = TaskPhase.idle)
    (hreach : SemReachable N init s) : inflightCount s ≤ N := by
  induction hreach with
  | refl =>
    have hz : inflightCount init = 0 := by
      rw [inflightCount, List.countP_eq_zero]
      intro a ha
      rw [hinit a ha]
      decide
    omega
  | step hr hstep ih =>
    cases hstep with
    | acquire ts1 ts2 h =>
      have hold : inflightCount (ts1 ++ TaskPhase.idle :: ts2)
          = inflightCount ts1 + inflightCount ts2 := by
        simp [inflightCount, List.countP_append, List.countP_cons]
      have hnew : inflightCount (ts1 ++ TaskPhase.inCall :: ts2)
          = inflightCount ts1 + inflightCount ts2 + 1 := by
        simp [inflightCount, List.countP_append, List.countP_cons]
        omega
      rw [hold] at h
      omega
    | release ts1 ts2 =>
      have hold : inflightCount (ts1 ++ TaskPhase.inCall :: ts2)
          = inflightCount ts1 + inflightCount ts2 + 1 := by
        simp [inflightCount, List.countP_append, List.countP_cons]
        omega
      have hnew : inflightCount (ts1 ++ TaskPhase.finished :: ts2)
          = inflightCount ts1 + inflightCount ts2 := by
        simp [inflightCount, List.countP_append, List.countP_cons]
      rw [hold] at ih
      omega

/-- Witness for C1: two tasks, capacity 1, after one acquire. -/
theorem semaphore_bound_witness :
    inflightCount [TaskPhase.inCall, TaskPhase.idle] ≤ 1 := by
  have hstep : SemStep 1 [TaskPhase.idle, TaskPhase.idle]
      [TaskPhase.inCall, TaskPhase.idle] :=
    SemStep.acquire [] [TaskPhase.idle] (by decide)
  exact semaphore_bound 1 [TaskPhase.idle, TaskPhase.idle] _
    (by intro t ht; fin_cases ht <;> rfl)
    (SemReachable.step SemReachable.refl hstep)

theorem waitExp_mono (lo hi n : Nat) : waitExp lo hi n ≤ waitExp lo hi (n + 1) := by
  unfold waitExp
  have hp : 2 ^ (n - 1) ≤ 2 ^ (n + 1 - 1) :=
    Nat.pow_le_pow_right (by omega) (by omega)
  exact max_le_max (le_refl lo) (min_le_min (le_refl hi) hp)

theorem chain'_waitExp (lo hi : Nat) : ∀ (K s : Nat),
    List.Chain' (· ≤ ·) ((List.range' s K).map (waitExp lo hi)) := by
  intro K
  induction K with
  | zero => intro s; simp
  | succ K' ih =>
    intro s
    rw [List.range'_succ, List.map_cons]
    rcases K' with _ | K''
    · simp
    · have hih := ih (s + 1)
      rw [List.range'_succ, List.map_cons] at hih
      exact List.Chain'.cons (waitExp_mono lo hi s) hih

theorem runRetryFrom_success (call : Nat → Outcome) (stopA lo hi : Nat) (t : Str) (K : Nat)
    (hcall : ∀ n, 1 ≤ n → n ≤ K → call n = Outcome.retryable)
    (hok : call (K + 1) = Outcome.ok t) (hstop : K + 1 ≤ stopA) :
    ∀ (m n : Nat) (acc : List Nat) (fuel : Nat), n + m = K + 1 → 1 ≤ n →
    n + fuel = stopA + 1 →
    runRetryFrom call stopA lo hi fuel n acc
      = RetryResult.success (K + 1) t (acc ++ (List.range' n m).map (waitExp lo hi)) := by
  intro m
  induction m with
  | zero =>
    intro n acc fuel hnm h1 hfuel
    have hn : n = K + 1 := by omega
    subst hn
    rcases fuel with _ | f
    · omega
    · simp only [runRetryFrom]
      rw [hok]
      simp
  | succ m ih =>
    intro n acc fuel hnm h1 hfuel
    have hnK : n ≤ K := by omega
    rcases fuel with _ | f
    · omega
    · simp only [runRetryFrom]
      rw [hcall n h1 hnK]
      rw [if_pos (show n < stopA by omega)]
      rw [ih (n + 1) (acc ++ [waitExp lo hi n]) f (by omega) (by omega) (by omega)]
      rw [List.range'_succ, List.map_cons]
      simp

/-- C3: a call that fails retryably on the first `K` attempts and
succeeds on attempt `K + 1` (with `K + 1` within the attempt ceiling
of 10) yields the stripped successful text after exactly `K + 1`
attempts; the backoff waits are non-decreasing, start at 1, and are
capped at 10. -/
theorem retry_then_success (K : Nat) (t : Str) (call : Nat → Outcome)
    (hK : K + 1 ≤ 10)
    (hfail : ∀ n, 1 ≤ n → n ≤ K → call n = Outcome.retryable)
    (hok : call (K + 1) = Outcome.ok t) :
    get_caption call
        = RetryResult.success (K + 1) (pyStrip t) ((List.range' 1 K).map (waitExp 1 10))
      ∧ List.Chain' (· ≤ ·) ((List.range' 1 K).map (waitExp 1 10))
      ∧ (∀ w ∈ (List.range' 1 K).map (waitExp 1 10), 1 ≤ w ∧ w ≤ 10)
      ∧ (0 < K → ((List.range' 1 K).map (waitExp 1 10)).head? = some 1) := by
  refine ⟨?_, chain'_waitExp 1 10 K 1, ?_, ?_⟩
  · unfold get_caption
    rw [runRetryFrom_success call 10 1 10 t K hfail hok hK K 1 [] 10 (by omega) (by omega)
      (by omega)]
    simp
  · intro w hw
    rcases List.mem_map.mp hw with ⟨i, _, rfl⟩
    exact ⟨le_max_left 1 _, Nat.max_le.mpr ⟨by omega, Nat.min_le_left 10 _⟩⟩
  · intro hK0
    rcases K with _ | K'
    · omega
    · rw [List.range'_succ, List.map_cons]
      rfl

/-- Witness for C3: two retryable failures then success, from the
all-concrete stub; two attempts of backoff, waits 1 then 2. -/
theorem retry_then_success_witness :
    get_caption (fun n => if n ≤ 2 then Outcome.retryable else Outcome.ok "hi".toList)
      = RetryResult.success 3 "hi".toList [1, 2] := by
  have h := retry_then_success 2 "hi".toList
    (fun n => if n ≤ 2 then Outcome.retryable else Outcome.ok "hi".toList)
    (by omega)
    (by intro n _ h2; exact if_pos h2)
    (by rfl)
  rw [h.1]
  decide

theorem get_caption_fatal : get_caption (fun _ => Outcome.fatal) = RetryResult.fatalFail 1 :=
  rfl

theorem process_mask_fatal (maxW : Nat) (fs : FS) (p : Str)
    (h : (caption_needs_regen false maxW fs (mask_to_caption_path p)).1 = true) :
    process_mask false maxW (fun _ _ => Outcome.fatal) fs p = (fs, ItemResult.failed) := by
  simp only [process_mask]
  rw [if_neg (by simp [h])]
  rfl

theorem process_items_fatal (maxW : Nat) (fs : FS) : ∀ paths : List Str,
    (∀ p ∈ paths, (caption_needs_regen false maxW fs (mask_to_caption_path p)).1 = true) →
    process_items false maxW (fun _ _ => Outcome.fatal) fs paths
      = (fs, paths.map (fun _ => ItemResult.failed)) := by
  intro paths
  induction paths with
  | nil => intro _; rfl
  | cons p ps ih =>
    intro helig
    simp only [process_items]
    rw [process_mask_fatal maxW fs p (helig p (by simp))]
    rw [ih (fun q hq => helig q (by simp [hq]))]
    simp

theorem countFailed_all_failed : ∀ rs : List ItemResult,
    (∀ r ∈ rs, r = ItemResult.failed) → countFailed rs = rs.length := by
  intro rs
  induction rs with
  | nil => intro _; rfl
  | cons r rest ih =>
    intro hall
    have hr : r = ItemResult.failed := hall r (by simp)
    subst hr
    have ih2 := ih (fun q hq => hall q (by simp [hq]))
    simp only [countFailed, List.countP_cons, List.length_cons] at ih2 ⊢
    rw [ih2]
    simp

theorem countWritten_all_failed : ∀ rs : List ItemResult,
    (∀ r ∈ rs, r = ItemResult.failed) → countWritten rs = 0 := by
  intro rs
  induction rs with
  | nil => intro _; rfl
  | cons r rest ih =>
    intro hall
    have hr : r = ItemResult.failed := hall r (by simp)
    subst hr
    have ih2 := ih (fun q hq => hall q (by simp [hq]))
    simp only [countWritten, List.countP_cons] at ih2 ⊢
    rw [ih2]
    simp

/-- C4: a client whose call always raises a non-retryable exception
fails after exactly one attempt with no backoff, and a folder of
eligible items processed against it ends with every item failed,
nothing written, and the filesystem unchanged (no output files
created). -/
theorem nonretryable_fails_once (maxW : Nat) (fs : FS) (paths : List Str)
    (helig : ∀ p ∈ paths,
      (caption_needs_regen false maxW fs (mask_to_caption_path p)).1 = true) :
    get_caption (fun _ => Outcome.fatal) = RetryResult.fatalFail 1
    ∧ process_items false maxW (fun _ _ => Outcome.fatal) fs paths
        = (fs, paths.map (fun _ => ItemResult.failed))
    ∧ countFailed (paths.map (fun _ => ItemResult.failed)) = paths.length
    ∧ countWritten (paths.map (fun _ => ItemResult.failed)) = 0 := by
  refine ⟨rfl, process_items_fatal maxW fs paths helig, ?_, ?_⟩
  · rw [countFailed_all_failed (paths.map fun _ => ItemResult.failed)
      (by intro r hr; rcases List.mem_map.mp hr with ⟨x, -, rfl⟩; rfl)]
    simp
  · exact countWritten_all_failed (paths.map fun _ => ItemResult.failed)
      (by intro r hr; rcases List.mem_map.mp hr with ⟨x, -, rfl⟩; rfl)

/-- Witness for C4: three eligible items against the always-fatal stub. -/
theorem nonretryable_fails_once_witness :
    process_items false 30 (fun _ _ => Outcome.fatal) emptyFS
        ["d/train_mask/a_b_c.png".toList, "d/train_mask/a_b_d.png".toList,
          "d/train_mask/a_b_e.png".toList]
      = (emptyFS, [ItemResult.failed, ItemResult.failed, ItemResult.failed]) := by
  have h := nonretryable_fails_once 30 emptyFS
    ["d/train_mask/a_b_c.png".toList, "d/train_mask/a_b_d.png".toList,
      "d/train_mask/a_b_e.png".toList]
    (by
      intro p hp
      simp only [List.mem_cons, List.not_mem_nil, or_false] at hp
      rcases hp with rfl | rfl | rfl <;> decide)
  exact h.2.1

theorem fallback_caption_ne_nil (p : Str) : fallback_caption p ≠ [] :=
  pyStrip_cons_ne_nil 'S' _ (by decide)

/-- C5: if the client always returns the empty string, an eligible item
still ends with a written caption file whose content is the
deterministic templated fallback (plus newline); the fallback is never
empty, so the output file is neither missing nor empty. -/
theorem empty_caption_fallback (maxW : Nat) (fs : FS) (p : Str)
    (helig : (caption_needs_regen false maxW fs (mask_to_caption_path p)).1 = true) :
    process_mask false maxW (fun _ _ => Outcome.ok []) fs p
        = (fsWrite fs (mask_to_caption_path p) (fallback_caption p ++ ['\n']),
          ItemResult.written (fallback_caption p))
    ∧ fallback_caption p ≠ []
    ∧ (fsWrite fs (mask_to_caption_path p) (fallback_caption p ++ ['\n'])).fexists
        (mask_to_caption_path p) = true
    ∧ (fsWrite fs (mask_to_caption_path p) (fallback_caption p ++ ['\n'])).fread
        (mask_to_caption_path p) = some (fallback_caption p ++ ['\n']) := by
  refine ⟨?_, fallback_caption_ne_nil p, by simp [fsWrite], by simp [fsWrite]⟩
  simp only [process_mask]
  rw [if_neg (by simp [helig])]
  rfl

/-- Witness for C5 at a concrete eligible item. -/
theorem empty_caption_fallback_witness :
    process_mask false 30 (fun _ _ => Outcome.ok []) emptyFS "d/train_mask/a_b_c.png".toList
        = (fsWrite emptyFS (mask_to_caption_path "d/train_mask/a_b_c.png".toList)
            (fallback_caption "d/train_mask/a_b_c.png".toList ++ ['\n']),
          ItemResult.written (fallback_caption "d/train_mask/a_b_c.png".toList))
      ∧ fallback_caption "d/train_mask/a_b_c.png".toList ≠ [] := by
  have h := empty_caption_fallback 30 emptyFS "d/train_mask/a_b_c.png".toList (by decide)
  exact ⟨h.1, h.2.1⟩

theorem regenLoop_stripped (g : Nat → RetryResult) (maxW : Nat) :
    ∀ (fuel : Nat) (cap : Str) (idx : Nat) (c : Str), pyStrip cap = cap →
    regenLoop g maxW cap idx fuel = some c → pyStrip c = c := by
  intro fuel
  induction fuel with
  | zero =>
    intro cap idx c hcap h
    simp only [regenLoop] at h
    injection h with h1
    rw [← h1]
    exact hcap
  | succ f ih =>
    intro cap idx c hcap h
    simp only [regenLoop] at h
    by_cases hinv : captionInvalid maxW cap = true
    · rw [if_pos hinv] at h
      rcases hg : g idx with ⟨n, t, w⟩ | n | n
      · rw [hg] at h
        exact ih (pyStrip t) (idx + 1) c (pyStrip_idem t) h
      · rw [hg] at h
        exact Option.noConfusion h
      · rw [hg] at h
        exact Option.noConfusion h
    · rw [if_neg hinv] at h
      injection h with h1
      rw [← h1]
      exact hcap

theorem fallback_caption_stripped (p : Str) :
    pyStrip (fallback_caption p) = fallback_caption p :=
  pyStrip_idem _

/-- Inversion of a `process_mask` run that wrote a caption: the output
filesystem is the input plus the written file, and the written caption
is in stripped form and non-empty. -/
theorem process_mask_written_inv (maxW : Nat) (llm : Nat → Nat → Outcome) (fs fs1 : FS)
    (p cap : Str)
    (h : process_mask false maxW llm fs p = (fs1, ItemResult.written cap)) :
    fs1 = fsWrite fs (mask_to_caption_path p) (cap ++ ['\n'])
      ∧ pyStrip cap = cap ∧ cap ≠ [] := by
  simp only [process_mask] at h
  split at h
  · simp at h
  · split at h
    · next n t w heq =>
      split at h
      · simp at h
      · next cap1 hr =>
        rw [Prod.mk.injEq] at h
        obtain ⟨hfs, hres⟩ := h
        injection hres with hcap
        have hcap1 : pyStrip cap1 = cap1 :=
          regenLoop_stripped (fun i => get_caption (llm i)) maxW 3 (pyStrip t) 1 cap1
            (pyStrip_idem t) hr
        by_cases hinv : captionInvalid maxW cap1 = true
        · rw [if_pos hinv] at hcap hfs
          refine ⟨by rw [← hfs, ← hcap], ?_, ?_⟩
          · rw [← hcap]; exact fallback_caption_stripped p
          · rw [← hcap]; exact fallback_caption_ne_nil p
        · rw [if_neg hinv] at hcap hfs
          have hne : cap1 ≠ [] := by
            intro he
            apply hinv
            rw [he]
            rfl
          refine ⟨by rw [← hfs, ← hcap], ?_, ?_⟩
          · rw [← hcap]; exact hcap1
          · rw [← hcap]; exact hne
    · next r heq => simp at h

/-- Inversion of a `process_mask` run that skipped: the filesystem is
unchanged and the resumability filter reported no work. -/
theorem process_mask_skipped_inv (maxW : Nat) (llm : Nat → Nat → Outcome) (fs fs1 : FS)
    (p : Str)
    (h : process_mask false maxW llm fs p = (fs1, ItemResult.skipped)) :
    fs1 = fs ∧ (caption_needs_regen false maxW fs (mask_to_caption_path p)).1 = false := by
  simp only [process_mask] at h
  split at h
  · next hcond =>
    rw [Prod.mk.injEq] at h
    exact ⟨h.1.symm, hcond⟩
  · next hcond =>
    split at h
    · split at h
      · simp at h
      · simp at h
    · simp at h

theorem process_mask_skips_of_filter_false (maxW : Nat) (llm : Nat → Nat → Outcome)
    (fs : FS) (p : Str)
    (h : (caption_needs_regen false maxW fs (mask_to_caption_path p)).1 = false) :
    process_mask false maxW llm fs p = (fs, ItemResult.skipped) := by
  simp only [process_mask]
  rw [if_pos h]

/-- The resumability filter depends on the filesystem only at the
queried path. -/
theorem caption_needs_regen_congr (maxW : Nat) (fs fs' : FS) (cp : Str)
    (h1 : fs'.fexists cp = fs.fexists cp) (h2 : fs'.fread cp = fs.fread cp) :
    caption_needs_regen false maxW fs' cp = caption_needs_regen false maxW fs cp := by
  simp only [caption_needs_regen, h1, h2]

/-- A `process_mask` run touches the filesystem at most at the item's
own caption path. -/
theorem process_mask_frame (maxW : Nat) (llm : Nat → Nat → Outcome) (fs : FS) (p : Str)
    (q : Str) (hq : q ≠ mask_to_caption_path p) :
    ((process_mask false maxW llm fs p).1.fexists q = fs.fexists q
      ∧ (process_mask false maxW llm fs p).1.fread q = fs.fread q) := by
  simp only [process_mask]
  split
  · exact ⟨rfl, rfl⟩
  · split
    · split
      · exact ⟨rfl, rfl⟩
      · simp [fsWrite, hq]
    · exact ⟨rfl, rfl⟩

/-- A folder pass touches the filesystem only at the caption paths of
its items. -/
theorem process_items_frame (maxW : Nat) (llm : Nat → Nat → Outcome) :
    ∀ (ps : List Str) (fs : FS) (q : Str), q ∉ ps.map mask_to_caption_path →
    ((process_items false maxW llm fs ps).1.fexists q = fs.fexists q
      ∧ (process_items false maxW llm fs ps).1.fread q = fs.fread q) := by
  intro ps
  induction ps with
  | nil => intro fs q _; exact ⟨rfl, rfl⟩
  | cons p rest ih =>
    intro fs q hq
    have hq1 : q ≠ mask_to_caption_path p := by
      intro he; exact hq (by simp [he])
    have hq2 : q ∉ rest.map mask_to_caption_path := by
      intro he; exact hq (by simp [he])
    have hstep := process_mask_frame maxW llm fs p q hq1
    have hrest := ih (process_mask false maxW llm fs p).1 q hq2
    simp only [process_items]
    exact ⟨hrest.1.trans hstep.1, hrest.2.trans hstep.2⟩

/-- After writing a stripped, non-empty, within-bound caption, the
resumability filter reports the item as done. -/
theorem filter_done_after_write (maxW : Nat) (fs : FS) (cp cap : Str)
    (hstr : pyStrip cap = cap) (hne : cap ≠ []) (hbound : count_words cap ≤ maxW) :
    caption_needs_regen false maxW (fsWrite fs cp (cap ++ ['\n'])) cp = (false, []) := by
  rw [caption_needs_regen_some maxW _ cp (cap ++ ['\n']) (by simp [fsWrite]) (by simp [fsWrite])]
  have hs : pyStrip (cap ++ ['\n']) = cap := by rw [pyStrip_append_newline, hstr]
  rw [hs]
  rw [if_neg (by simp [hne]), if_neg (by omega)]

/-- C6 (amended): if a first pass over a folder finishes with no failed
items, the items' caption paths are pairwise distinct, and every
caption written by the first pass is within the configured word bound,
then a second pass over the same folder with the same configuration
performs zero writes: every item is skipped and the filesystem is
unchanged. -/
theorem second_run_zero_writes (maxW : Nat) (llm llm2 : Nat → Nat → Outcome) :
    ∀ (paths : List Str) (fs fs1 : FS) (rs : List ItemResult),
    process_items false maxW llm fs paths = (fs1, rs) →
    (∀ r ∈ rs, r ≠ ItemResult.failed) →
    List.Pairwise (fun a b => a ≠ b) (paths.map mask_to_caption_path) →
    (∀ cap, ItemResult.written cap ∈ rs → count_words cap ≤ maxW) →
    process_items false maxW llm2 fs1 paths
      = (fs1, paths.map (fun _ => ItemResult.skipped)) := by
  intro paths
  induction paths with
  | nil =>
    intro fs fs1 rs h _ _ _
    simp only [process_items] at h ⊢
    rw [Prod.mk.injEq] at h
    obtain ⟨h1, _⟩ := h
    subst h1
    simp
  | cons p ps ih =>
    intro fs fs1 rs h hnf hpw hbound
    rcases hstep : process_mask false maxW llm fs p with ⟨fsa, r⟩
    rcases hrest : process_items false maxW llm fsa ps with ⟨fsb, rs'⟩
    have h' : (fsb, r :: rs') = (fs1, rs) := by
      rw [← h]
      simp only [process_items, hstep, hrest]
    rw [Prod.mk.injEq] at h'
    obtain ⟨hfsb, hrs⟩ := h'
    subst hfsb
    subst hrs
    have hnf_r : r ≠ ItemResult.failed := hnf r (by simp)
    have hnf_t : ∀ x ∈ rs', x ≠ ItemResult.failed := fun x hx => hnf x (by simp [hx])
    have hpw' : List.Pairwise (fun a b => a ≠ b)
        (mask_to_caption_path p :: ps.map mask_to_caption_path) := by
      simpa using hpw
    have hpw_head := (List.pairwise_cons.mp hpw').1
    have hpw_t := (List.pairwise_cons.mp hpw').2
    have hbound_t : ∀ cap, ItemResult.written cap ∈ rs' → count_words cap ≤ maxW :=
      fun cap hc => hbound cap (by simp [hc])
    have hih := ih fsa fsb rs' hrest hnf_t hpw_t hbound_t
    have hcp_not : mask_to_caption_path p ∉ ps.map mask_to_caption_path := by
      intro hin
      exact (hpw_head _ hin) rfl
    obtain ⟨hf1, hf2⟩ := process_items_frame maxW llm ps fsa (mask_to_caption_path p) hcp_not
    rw [hrest] at hf1 hf2
    have hskip2 : process_mask false maxW llm2 fsb p = (fsb, ItemResult.skipped) := by
      apply process_mask_skips_of_filter_false
      rw [caption_needs_regen_congr maxW fsa fsb (mask_to_caption_path p) hf1 hf2]
      cases r with
      | skipped =>
        obtain ⟨hfs_eq, hfil⟩ := process_mask_skipped_inv maxW llm fs fsa p hstep
        rw [hfs_eq]
        exact hfil
      | written cap =>
        obtain ⟨hfs_eq, hstr, hne⟩ := process_mask_written_inv maxW llm fs fsa p cap hstep
        have hb : count_words cap ≤ maxW := hbound cap (by simp)
        rw [hfs_eq]
        rw [filter_done_after_write maxW fs (mask_to_caption_path p) cap hstr hne hb]
      | failed => exact absurd rfl hnf_r
    simp only [process_items, hskip2]
    simp [hih]

/-- Witness for C6 (amended): one item, client returning a valid short
caption; the second pass skips it. -/
theorem second_run_zero_writes_witness :
    process_items false 30 (fun _ _ => Outcome.ok "hello".toList)
        (process_items false 30 (fun _ _ => Outcome.ok "hello".toList) emptyFS
          ["d/train_mask/a_b_c.png".toList]).1
        ["d/train_mask/a_b_c.png".toList]
      = ((process_items false 30 (fun _ _ => Outcome.ok "hello".toList) emptyFS
          ["d/train_mask/a_b_c.png".toList]).1,
        [ItemResult.skipped]) := by
  have hsnd : (process_items false 30 (fun _ _ => Outcome.ok "hello".toList) emptyFS
      ["d/train_mask/a_b_c.png".toList]).2 = [ItemResult.written "hello".toList] := by
    decide
  have hrun : process_items false 30 (fun _ _ => Outcome.ok "hello".toList) emptyFS
      ["d/train_mask/a_b_c.png".toList]
      = ((process_items false 30 (fun _ _ => Outcome.ok "hello".toList) emptyFS
          ["d/train_mask/a_b_c.png".toList]).1, [ItemResult.written "hello".toList]) := by
    rw [← hsnd]
  have h := second_run_zero_writes 30 (fun _ _ => Outcome.ok "hello".toList)
    (fun _ _ => Outcome.ok "hello".toList) ["d/train_mask/a_b_c.png".toList] emptyFS
    _ [ItemResult.written "hello".toList] hrun
    (by intro r hr; simp at hr; subst hr; decide)
    (by simp)
    (by intro cap hc; simp at hc; subst hc; decide)
  simpa using h

/-- C6 counterexample: for a mask whose filename target has 27 words,
the first run writes the 31-word fallback caption (the always-empty
client forces the fallback), and the second run does not skip it: the
filter reports the written file as too long and the item is written
again, so the second run is not write-free. -/
theorem idempotence_counterexample :
    (process_mask false 30 (fun _ _ => Outcome.ok []) emptyFS
        "d/train_mask/CT_abdomen_a+a+a+a+a+a+a+a+a+a+a+a+a+a+a+a+a+a+a+a+a+a+a+a+a+a+a.png".toList).2
      = ItemResult.written (fallback_caption "d/train_mask/CT_abdomen_a+a+a+a+a+a+a+a+a+a+a+a+a+a+a+a+a+a+a+a+a+a+a+a+a+a+a.png".toList)
    ∧ (process_mask false 30 (fun _ _ => Outcome.ok [])
        (process_mask false 30 (fun _ _ => Outcome.ok []) emptyFS
          "d/train_mask/CT_abdomen_a+a+a+a+a+a+a+a+a+a+a+a+a+a+a+a+a+a+a+a+a+a+a+a+a+a+a.png".toList).1
        "d/train_mask/CT_abdomen_a+a+a+a+a+a+a+a+a+a+a+a+a+a+a+a+a+a+a+a+a+a+a+a+a+a+a.png".toList).2
      ≠ ItemResult.skipped := by
  constructor
  · decide
  · decide
